import Mathlib

/-!
Verification development for a small word-dictionary manager.

The program consists of two variants of a `DictionaryAgent` class:
`agentv3.py` (built-in dictionary, case-insensitive lookup, difflib-based
suggestions) and `agent_ai_gen.py` (JSON persistence, exact-match lookup).
We embed the Python data model (`dict[str, str]` as an insertion-ordered
association list with unique keys) and each operation, together with the
relevant part of the standard library (`difflib.get_close_matches` and the
JSON load/save behaviour), and prove the specified properties.
-/

namespace DictAgent

/-- Python `dict[str, str]`, modelled as an association list in insertion
order. Python guarantees unique keys; where a proof needs that invariant it
takes it as a `Nodup` hypothesis on the keys. -/
abbrev PyDict := List (String × String)

/-- Python `word in d` (key membership test). -/
def dictContains : PyDict → String → Bool
  | [], _ => false
  | p :: rest, w => p.1 == w || dictContains rest w

/-- Python `d.get(word)`: value of the (unique) entry with key `w`, if any.
On an association list this is the first entry with that key. -/
def dictGet : PyDict → String → Option String
  | [], _ => none
  | p :: rest, w => if p.1 == w then some p.2 else dictGet rest w

/-- Python `d[w] = v`: update the value in place if the key is present
(keeping its position, as Python dicts do), otherwise append at the end. -/
def dictSet (d : PyDict) (w v : String) : PyDict :=
  if dictContains d w then d.map (fun p => if p.1 == w then (p.1, v) else p)
  else d ++ [(w, v)]

/-- Python `del d[w]` / `d.pop(w, None)`: drop the (unique) entry with key
`w`; on an association list, the first entry with that key. Identity when
the key is absent. -/
def eraseKey : PyDict → String → PyDict
  | [], _ => []
  | p :: rest, w => if p.1 == w then rest else p :: eraseKey rest w

/-- Python `d.keys()` in iteration (= insertion) order. -/
def dictKeys (d : PyDict) : List String :=
  d.map Prod.fst

/-- Python dict comprehension `{k: v for (k, v) in l}`: sequential insertion
into an empty dict, so a later duplicate key overwrites the value at the
position of the first occurrence. -/
def fromPairs (l : List (String × String)) : PyDict :=
  l.foldl (fun d p => dictSet d p.1 p.2) []

/-- Python `s.lower()`. `Char.toLower` is ASCII-only, which matches
`str.lower` on the basic-latin range; non-ASCII case folding is outside
this model. -/
def lowerStr (s : String) : String :=
  ⟨s.data.map Char.toLower⟩

/-- Is the first list a prefix of the second (used for `str.startswith`)? -/
def lpfx : List Char → List Char → Bool
  | [], _ => true
  | _ :: _, [] => false
  | a :: as, b :: bs => a == b && lpfx as bs

/-- Python `s.startswith(p)`. -/
def strStartsWith (s p : String) : Bool :=
  lpfx p.data s.data

/-- Lexicographic `≤` on code-point sequences, matching Python string
comparison. -/
def lexLeCh : List Char → List Char → Bool
  | [], _ => true
  | _ :: _, [] => false
  | a :: as, b :: bs =>
    if a.toNat < b.toNat then true
    else if b.toNat < a.toNat then false
    else lexLeCh as bs

namespace Difflib

/-!
Embedding of the part of the CPython `difflib` module used by `agentv3.py`:
`SequenceMatcher.ratio` (Ratcliff/Obershelp matching-block count), its
`quick_ratio`/`real_quick_ratio` upper bounds, and `get_close_matches`.
The junk heuristics (`isjunk`, and `autojunk`, which only affects second
sequences of length ≥ 200) are outside this model; on the short strings the
program handles they never fire.
-/

/-- Length of the longest common prefix of two sequences: the size of the
matching block starting at a given pair of positions. -/
def cpl : List Char → List Char → Nat
  | a :: as, b :: bs => if a = b then cpl as bs + 1 else 0
  | _, _ => 0

/-- All candidate matching blocks `(i, j, size)`, where `size` is the length
of the matching block starting at `a[i:]`/`b[j:]`, enumerated in increasing
`i`, then increasing `j`. -/
def lmCands (a b : List Char) : List (Nat × Nat × Nat) :=
  (List.range a.length).flatMap fun i =>
    (List.range b.length).map fun j => (i, j, cpl (a.drop i) (b.drop j))

/-- Keep the strictly larger block; on ties keep the earlier one. Combined
with the enumeration order of `lmCands` this realises the documented
contract of `SequenceMatcher.find_longest_match`: of all maximal matching
blocks, the one starting earliest in `a`, then earliest in `b`. -/
def lmPick (best t : Nat × Nat × Nat) : Nat × Nat × Nat :=
  if best.2.2 < t.2.2 then t else best

/-- Model of `SequenceMatcher.find_longest_match` over whole sequences: the longest
matching block `(i, j, size)`, with ties resolved to the earliest start in
`a`, then in `b`; `(0, 0, 0)` when there is no non-empty match. -/
def longestMatch (a b : List Char) : Nat × Nat × Nat :=
  (lmCands a b).foldl lmPick (0, 0, 0)

/-- Total size of all matching blocks (the sum `ratio` is computed from):
recursively take the longest match and recurse on the parts to its left and
to its right, exactly as `get_matching_blocks` does. The fuel argument is
`a.length`, which strictly bounds the recursion depth, so it never runs out
on a non-trivial call. -/
def matchingSumF : Nat → List Char → List Char → Nat
  | 0, _, _ => 0
  | fuel + 1, a, b =>
    if (longestMatch a b).2.2 = 0 then 0
    else
      matchingSumF fuel (a.take (longestMatch a b).1) (b.take (longestMatch a b).2.1) +
        (longestMatch a b).2.2 +
        matchingSumF fuel
          (a.drop ((longestMatch a b).1 + (longestMatch a b).2.2))
          (b.drop ((longestMatch a b).2.1 + (longestMatch a b).2.2))

/-- Sum of the sizes of the matching blocks of `a` and `b`. -/
def matchingSum (a b : List Char) : Nat :=
  matchingSumF a.length a b

/-- Model of `difflib._calculate_ratio(matches, length)`, over ℚ instead of binary
floating point: `2.0 * matches / length` (written with `mkRat`, the same
exact rational), and `1.0` when `length` is 0. -/
def calcRatioQ (m len : Nat) : ℚ :=
  if 0 < len then mkRat (2 * m) len else 1

/-- Model of `SequenceMatcher(a=x, b=word).ratio()`. -/
def ratioQ (a b : String) : ℚ :=
  calcRatioQ (matchingSum a.data b.data) (a.data.length + b.data.length)

/-- The number of character matches counted by `quick_ratio`: for each
distinct character, the smaller of its multiplicities in the two strings.
`List.bagInter` computes exactly that multiset intersection. -/
def quickMatchCount (a b : List Char) : Nat :=
  (a.bagInter b).length

/-- Model of `SequenceMatcher.quick_ratio()`: ratio computed from multiset
character overlap, an upper bound on `ratio`. -/
def quickRatioQ (a b : String) : ℚ :=
  calcRatioQ (quickMatchCount a.data b.data) (a.data.length + b.data.length)

/-- Model of `SequenceMatcher.real_quick_ratio()`: ratio computed from the lengths
alone, an upper bound on `quick_ratio`. -/
def realQuickRatioQ (a b : String) : ℚ :=
  calcRatioQ (min a.data.length b.data.length) (a.data.length + b.data.length)

/-- Python `(score1, x1) <= (score2, x2)` on the `(ratio, candidate)` pairs
`get_close_matches` heaps: lexicographic on the score, then on the string. -/
def tupLe (x y : ℚ × String) : Bool :=
  if x.1 < y.1 then true
  else if y.1 < x.1 then false
  else lexLeCh x.2.data y.2.data

/-- The descending order used to sort those pairs: `x` may precede `y` when
`y ≤ x` in Python tuple order. -/
def TupGeR (x y : ℚ × String) : Prop :=
  tupLe y x = true

instance : DecidableRel TupGeR := fun x y =>
  inferInstanceAs (Decidable (tupLe y x = true))

/-- Model of `heapq.nlargest(n, result)`, by its documented equivalence
`sorted(iterable, reverse=True)[:n]` (a stable descending sort followed by
truncation). -/
def nlargest (n : Int) (l : List (ℚ × String)) : List (ℚ × String) :=
  (List.insertionSort TupGeR l).take n.toNat

/-- Model of `difflib.get_close_matches(word, possibilities, n, cutoff)`. Raises
`ValueError` (modelled as `Except.error`) unless `n > 0` and
`0 ≤ cutoff ≤ 1`; otherwise keeps the possibilities passing the three ratio
tests, takes the `n` largest `(ratio, candidate)` pairs, and strips the
scores. -/
def getCloseMatches (word : String) (possibilities : List String) (n : Int)
    (cutoff : ℚ) : Except String (List String) :=
  if ¬ 0 < n then .error "n must be > 0"
  else if ¬ (0 ≤ cutoff ∧ cutoff ≤ 1) then .error "cutoff must be in [0.0, 1.0]"
  else
    let result := possibilities.filterMap fun x =>
      if cutoff ≤ realQuickRatioQ x word ∧ cutoff ≤ quickRatioQ x word ∧
          cutoff ≤ ratioQ x word
      then some (ratioQ x word, x) else none
    .ok ((nlargest n result).map Prod.snd)

/-- Modelled from the spec (C2, as amended): keep exactly the candidates
whose similarity ratio reaches the cutoff, pair each with its ratio, sort
the pairs descending (stably) in Python tuple order — so equal ratios order
by descending candidate string, not by input order — and return the first
`n` candidates (none when `n ≤ 0`), scores stripped. -/
def suggestSpec (word : String) (possibilities : List String) (n : Int)
    (cutoff : ℚ) : List String :=
  ((List.insertionSort TupGeR
      ((possibilities.filter fun x => decide (cutoff ≤ ratioQ x word)).map
        fun x => (ratioQ x word, x))).take n.toNat).map Prod.snd

end Difflib

namespace V3

/-!
Embedding of the `DictionaryAgent` class of `agentv3.py`. The agent state is its
`data` dict; each method becomes a function of that state (returning the new
state where the method mutates it).
-/

/-- The loop in the case-insensitive branch of `DictionaryAgent.define`: first
entry whose lowercased key equals the (already lowercased) query key. -/
def defineScan : PyDict → String → Option String
  | [], _ => none
  | p :: rest, key => if lowerStr p.1 == key then some p.2 else defineScan rest key

/-- Method `DictionaryAgent.define(word, case_sensitive)`: exact `dict.get` when
case-sensitive, otherwise a scan comparing lowercased keys against the
lowercased word, in mapping-iteration order. -/
def define (d : PyDict) (word : String) (case_sensitive : Bool) : Option String :=
  if case_sensitive then dictGet d word else defineScan d (lowerStr word)

/-- Method `DictionaryAgent.add(word, definition, overwrite)`: returns the new
`data` dict and the boolean result. -/
def add (d : PyDict) (word dfn : String) (overwrite : Bool) : PyDict × Bool :=
  if dictContains d word && !overwrite then (d, false)
  else (dictSet d word dfn, true)

/-- The fallback loop in `DictionaryAgent.remove`: delete the first entry
whose lowercased key equals the lowercased word. -/
def removeScan : PyDict → String → PyDict × Bool
  | [], _ => ([], false)
  | p :: rest, word =>
    if lowerStr p.1 == lowerStr word then (rest, true)
    else
      let r := removeScan rest word
      (p :: r.1, r.2)

/-- Method `DictionaryAgent.remove(word)`: exact deletion if the key is present,
otherwise the case-insensitive fallback scan. -/
def remove (d : PyDict) (word : String) : PyDict × Bool :=
  if dictContains d word then (eraseKey d word, true) else removeScan d word

/-- Method `DictionaryAgent.list(prefix)`: sorted keys, filtered by
`startswith` when a prefix is given. Note the Python truthiness test
`if prefix:` — an empty-string argument behaves like no argument. -/
def list (d : PyDict) (pfx : Option String) : List String :=
  let keys := List.insertionSort (· ≤ ·) (dictKeys d)
  match pfx with
  | some p => if p == "" then keys else keys.filter (fun k => strStartsWith k p)
  | none => keys

/-- Method `DictionaryAgent.suggest(query, max_results)`:
`difflib.get_close_matches(query, keys, n=max_results, cutoff=0.4)`. -/
def suggest (d : PyDict) (query : String) (max_results : Int) :
    Except String (List String) :=
  Difflib.getCloseMatches query (dictKeys d) max_results (mkRat 2 5)

end V3

/-- The JSON values `json.load` can produce (numbers restricted to
integers; binary floating point is outside this model and unused by the
documents the program itself writes). Object keys are strings after parsing. -/
inductive Json where
  | null
  | bool (b : Bool)
  | num (n : Int)
  | str (s : String)
  | arr (elems : List Json)
  | obj (kvs : List (String × Json))

/-- What `open(path)` + `json.load(f)` can encounter at the storage path:
no file at all (`FileNotFoundError`), a file whose contents fail to parse
(`json.JSONDecodeError`), or a file parsing to a JSON value. -/
inductive FileContent where
  | absent
  | malformed
  | file (j : Json)

/-- The error a `load` call can signal (a `json.JSONDecodeError` escaping
the `try` block, which only catches `FileNotFoundError`). -/
inductive LoadErr where
  | decodeError
deriving DecidableEq

mutual

/-- Python `repr` of a parsed-JSON value, for the container cases of
`str(v)` (string escaping subtleties inside `repr` are outside this model:
the documents the program itself writes only ever hold strings at top level). -/
def pyRepr : Json → String
  | .null => "None"
  | .bool true => "True"
  | .bool false => "False"
  | .num n => toString n
  | .str s => "\x27" ++ s ++ "\x27"
  | .arr es => "[" ++ pyReprElems es ++ "]"
  | .obj kvs => "\x7b" ++ pyReprPairs kvs ++ "\x7d"

/-- Comma-separated `repr`s of list elements. -/
def pyReprElems : List Json → String
  | [] => ""
  | [e] => pyRepr e
  | e :: rest => pyRepr e ++ ", " ++ pyReprElems rest

/-- Comma-separated `repr(k): repr(v)` of dict entries. -/
def pyReprPairs : List (String × Json) → String
  | [] => ""
  | [(k, v)] => pyRepr (.str k) ++ ": " ++ pyRepr v
  | (k, v) :: rest => pyRepr (.str k) ++ ": " ++ pyRepr v ++ ", " ++ pyReprPairs rest

end

/-- Python `str(v)` on a parsed-JSON value: identity on strings, `True`/
`False`/`None` on booleans and null, decimal form on numbers, `repr` on
containers. -/
def pyStr : Json → String
  | .str s => s
  | .null => "None"
  | .bool true => "True"
  | .bool false => "False"
  | .num n => toString n
  | .arr es => pyRepr (.arr es)
  | .obj kvs => pyRepr (.obj kvs)

namespace Gen

/-!
Embedding of the `DictionaryAgent` class of `agent_ai_gen.py`. Here `load`/`save` are
modelled through the `FileContent` found at / written to `self.storage_path`.
-/

/-- Method `DictionaryAgent.load()`: the `try` block catches only
`FileNotFoundError` (→ empty dict). A parse failure propagates. A parsed
non-dict document yields an empty dict; a parsed dict is coerced entryvise
with `str` (keys coming out of `json.load` are already strings, so `str(k)`
is the identity on them). -/
def load : FileContent → Except LoadErr PyDict
  | .absent => .ok []
  | .malformed => .error .decodeError
  | .file j =>
    match j with
    | .obj kvs => .ok (fromPairs (kvs.map fun p => (p.1, pyStr p.2)))
    | _ => .ok []

/-- Method `DictionaryAgent.save()`: the JSON document `json.dump` writes for the
current dict (directory creation and the text encoding are plumbing outside
the logical model). -/
def saveJson (d : PyDict) : Json :=
  .obj (d.map fun p => (p.1, .str p.2))

/-- Method `DictionaryAgent.lookup(word)`: exact `dict.get`. -/
def lookup (d : PyDict) (word : String) : Option String :=
  dictGet d word

/-- Method `DictionaryAgent.add(word, definition, overwrite)` (same code as the
`agentv3.py` variant). -/
def add (d : PyDict) (word dfn : String) (overwrite : Bool) : PyDict × Bool :=
  if dictContains d word && !overwrite then (d, false)
  else (dictSet d word dfn, true)

/-- Method `DictionaryAgent.remove(word)`: the test `self._dict.pop(word, None) is not None`
(exact key only; no case-insensitive fallback in this variant). -/
def remove (d : PyDict) (word : String) : PyDict × Bool :=
  (eraseKey d word, dictContains d word)

/-- Method `DictionaryAgent.list_words()`: a shallow copy of the dict. -/
def list_words (d : PyDict) : PyDict :=
  d

end Gen

/-! ### Dictionary lemmas -/

theorem dictContains_iff (d : PyDict) (w : String) :
    dictContains d w = true ↔ w ∈ dictKeys d := by
  induction d with
  | nil => simp [dictContains, dictKeys]
  | cons p rest ih =>
    by_cases hp : p.1 == w
    · have : p.1 = w := beq_iff_eq.mp hp
      simp [dictContains, dictKeys, hp, this]
    · simp only [dictContains, dictKeys, List.map_cons, List.mem_cons, hp,
        Bool.false_or]
      rw [ih]
      simp only [dictKeys]
      constructor
      · exact Or.inr
      · rintro (he | hm)
        · exact absurd (beq_iff_eq.mpr he.symm) hp
        · exact hm

theorem dictGet_of_not_contains (d : PyDict) (w : String)
    (h : dictContains d w = false) : dictGet d w = none := by
  induction d with
  | nil => rfl
  | cons p rest ih =>
    simp only [dictContains, Bool.or_eq_false_iff] at h
    simp [dictGet, h.1, ih h.2]

theorem eraseKey_of_not_contains (d : PyDict) (w : String)
    (h : dictContains d w = false) : eraseKey d w = d := by
  induction d with
  | nil => rfl
  | cons p rest ih =>
    simp only [dictContains, Bool.or_eq_false_iff] at h
    simp [eraseKey, h.1, ih h.2]

theorem dictGet_map_update (d : PyDict) (w v : String)
    (h : dictContains d w = true) :
    dictGet (d.map fun p => if p.1 == w then (p.1, v) else p) w = some v := by
  induction d with
  | nil => simp [dictContains] at h
  | cons p rest ih =>
    by_cases hp : p.1 == w
    · simp [dictGet, hp]
    · simp only [dictContains, hp, Bool.false_or] at h
      simp only [List.map_cons, hp, if_false, dictGet]
      rw [if_neg (by simpa using hp)]
      exact ih h

theorem dictGet_append_single (d : PyDict) (w v : String)
    (h : dictContains d w = false) :
    dictGet (d ++ [(w, v)]) w = some v := by
  induction d with
  | nil => simp [dictGet]
  | cons p rest ih =>
    simp only [dictContains, Bool.or_eq_false_iff] at h
    simp only [List.cons_append, dictGet, h.1, if_false]
    exact ih h.2

theorem dictGet_dictSet_self (d : PyDict) (w v : String) :
    dictGet (dictSet d w v) w = some v := by
  unfold dictSet
  by_cases h : dictContains d w = true
  · simpa [h] using dictGet_map_update d w v h
  · simp only [Bool.not_eq_true] at h
    simpa [h] using dictGet_append_single d w v h

theorem dictGet_map_update_ne (d : PyDict) (w v u : String) (h : u ≠ w) :
    dictGet (d.map fun p => if p.1 == w then (p.1, v) else p) u = dictGet d u := by
  induction d with
  | nil => rfl
  | cons p rest ih =>
    by_cases hp : p.1 == w
    · have hpe : p.1 = w := beq_iff_eq.mp hp
      have hu : (p.1 == u) = false := by
        simp only [beq_eq_false_iff_ne, ne_eq, hpe]
        exact fun he => h he.symm
      simp only [List.map_cons, hp, if_true, dictGet, hu, if_false]
      exact ih
    · by_cases hu : p.1 == u
      · simp [dictGet, hp, hu]
      · simp only [List.map_cons, hp, if_false, dictGet, hu, Bool.false_eq_true]
        simpa [dictGet, hp, hu] using ih

theorem dictGet_append_single_ne (d : PyDict) (w v u : String) (h : u ≠ w) :
    dictGet (d ++ [(w, v)]) u = dictGet d u := by
  induction d with
  | nil =>
    have : (w == u) = false := by
      simp only [beq_eq_false_iff_ne, ne_eq]
      exact fun he => h he.symm
    simp [dictGet, this]
  | cons p rest ih =>
    by_cases hu : p.1 == u
    · simp [dictGet, hu]
    · simp only [List.cons_append, dictGet, hu, if_false]
      exact ih

theorem dictGet_dictSet_ne (d : PyDict) (w v u : String) (h : u ≠ w) :
    dictGet (dictSet d w v) u = dictGet d u := by
  unfold dictSet
  split
  · exact dictGet_map_update_ne d w v u h
  · exact dictGet_append_single_ne d w v u h

/-! ### C1: load never errors (lenient-failure policy) — REFUTED
The `try` block of `DictionaryAgent.load` catches only `FileNotFoundError`;
a file that exists but fails to parse raises `json.JSONDecodeError`, which
propagates to the caller. Only "missing file" and "parses but is not a
key-value object" collapse to the empty mapping. -/

/-- C1 counterexample: a present-but-malformed storage file makes `load`
signal an error (the `JSONDecodeError` escapes), contradicting the claim
that `load` never signals an error and always leaves a well-defined
mapping. -/
theorem claim_C1_counterexample :
    Gen.load FileContent.malformed = Except.error LoadErr.decodeError := rfl

/-- C1 (amended): if the target file does not exist the mapping becomes
empty, and if the file parses to something other than a key-value object
the mapping becomes empty; but if the file exists and fails to parse,
`load` signals an error (the decode error propagates) instead of emptying
the mapping. -/
theorem claim_C1 :
    Gen.load FileContent.absent = Except.ok [] ∧
    (∀ j : Json, (∀ kvs, j ≠ Json.obj kvs) → Gen.load (FileContent.file j) = Except.ok []) ∧
    Gen.load FileContent.malformed = Except.error LoadErr.decodeError := by
  refine ⟨rfl, ?_, rfl⟩
  intro j h
  cases j with
  | obj kvs => exact absurd rfl (h kvs)
  | null => rfl
  | bool b => rfl
  | num n => rfl
  | str s => rfl
  | arr es => rfl

/-- C1 witness: a file holding a JSON array (not a key-value object) loads
as the empty mapping. -/
theorem claim_C1_witness :
    Gen.load (FileContent.file (Json.arr [Json.num 1])) = Except.ok [] :=
  claim_C1.2.1 (Json.arr [Json.num 1]) (fun kvs h => Json.noConfusion h)

/-! ### C3: save/load round trip -/

theorem contains_false_of_not_mem {d : PyDict} {w : String}
    (h : w ∉ dictKeys d) : dictContains d w = false := by
  by_contra hc
  simp only [Bool.not_eq_false] at hc
  exact h ((dictContains_iff d w).mp hc)

theorem foldl_dictSet_append (l : List (String × String)) :
    ∀ acc : PyDict, (dictKeys (acc ++ l)).Nodup →
      l.foldl (fun d p => dictSet d p.1 p.2) acc = acc ++ l := by
  induction l with
  | nil => intro acc _; simp
  | cons p rest ih =>
    intro acc hnd
    have hk : p.1 ∉ dictKeys acc := by
      intro hmem
      simp only [dictKeys, List.map_append, List.nodup_append] at hnd
      exact hnd.2.2 hmem (by simp)
    have hset : dictSet acc p.1 p.2 = acc ++ [p] := by
      simp [dictSet, contains_false_of_not_mem hk]
    have hnd' : (dictKeys ((acc ++ [p]) ++ rest)).Nodup := by
      simpa [dictKeys] using hnd
    calc (p :: rest).foldl (fun d q => dictSet d q.1 q.2) acc
        = rest.foldl (fun d q => dictSet d q.1 q.2) (acc ++ [p]) := by
          simp [List.foldl_cons, hset]
      _ = (acc ++ [p]) ++ rest := ih (acc ++ [p]) hnd'
      _ = acc ++ p :: rest := by simp

theorem fromPairs_eq_self (d : PyDict) (hnd : (dictKeys d).Nodup) :
    fromPairs d = d := by
  simpa [fromPairs] using foldl_dictSet_append d [] (by simpa using hnd)

/-- C3: for a non-empty mapping with the dict invariant (unique keys),
saving and then loading the written document on a fresh store reproduces an
equal mapping. -/
theorem claim_C3 (d : PyDict) (hne : d ≠ []) (hnd : (dictKeys d).Nodup) :
    Gen.load (FileContent.file (Gen.saveJson d)) = Except.ok d := by
  have hmap : (d.map fun p => (p.1, Json.str p.2)).map
      (fun p => (p.1, pyStr p.2)) = d := by
    rw [List.map_map]
    have : ((fun p : String × Json => (p.1, pyStr p.2)) ∘
        fun p : String × String => (p.1, Json.str p.2)) = id := by
      funext p
      simp [pyStr]
    simp [this]
  simp only [Gen.load, Gen.saveJson, hmap]
  rw [fromPairs_eq_self d hnd]

/-- C3 witness at a concrete two-entry mapping. -/
theorem claim_C3_witness :
    Gen.load (FileContent.file (Gen.saveJson [("cache", "fast"), ("binary", "01")])) =
      Except.ok [("cache", "fast"), ("binary", "01")] :=
  claim_C3 [("cache", "fast"), ("binary", "01")] (by simp) (by simp [dictKeys])

/-! ### C4: add on an existing key -/

/-- C4: when `w` is already a key, `add(w, d2, overwrite=false)` returns
`false` and leaves the whole mapping unchanged (in both agent variants),
while `add(w, d2, overwrite=true)` returns `true` and afterwards the
mapping is the old mapping with `w` bound to `d2` (the value at `w` is `d2`
and every other key is untouched). -/
theorem claim_C4 (d : PyDict) (w d2 : String) (h : dictContains d w = true) :
    (V3.add d w d2 false = (d, false) ∧ Gen.add d w d2 false = (d, false)) ∧
    ((V3.add d w d2 true).2 = true ∧
      dictGet (V3.add d w d2 true).1 w = some d2 ∧
      ∀ u, u ≠ w → dictGet (V3.add d w d2 true).1 u = dictGet d u) ∧
    ((Gen.add d w d2 true).2 = true ∧
      dictGet (Gen.add d w d2 true).1 w = some d2 ∧
      ∀ u, u ≠ w → dictGet (Gen.add d w d2 true).1 u = dictGet d u) := by
  refine ⟨⟨?_, ?_⟩, ⟨?_, ?_, ?_⟩, ⟨?_, ?_, ?_⟩⟩
  · simp [V3.add, h]
  · simp [Gen.add, h]
  · simp [V3.add]
  · simpa [V3.add] using dictGet_dictSet_self d w d2
  · intro u hu
    simpa [V3.add] using dictGet_dictSet_ne d w d2 u hu
  · simp [Gen.add]
  · simpa [Gen.add] using dictGet_dictSet_self d w d2
  · intro u hu
    simpa [Gen.add] using dictGet_dictSet_ne d w d2 u hu

/-- C4 witness at a concrete one-entry mapping. -/
theorem claim_C4_witness :
    V3.add [("cache", "fast")] "cache" "slow" false = ([("cache", "fast")], false) ∧
    dictGet (V3.add [("cache", "fast")] "cache" "slow" true).1 "cache" = some "slow" :=
  ⟨(claim_C4 [("cache", "fast")] "cache" "slow" (by decide)).1.1,
    (claim_C4 [("cache", "fast")] "cache" "slow" (by decide)).2.1.2.1⟩

/-! ### C5: remove — exact first, then case-insensitive fallback -/

theorem removeScan_of_find_none (d : PyDict) (w : String)
    (h : (dictKeys d).find? (fun k => lowerStr k == lowerStr w) = none) :
    V3.removeScan d w = (d, false) := by
  induction d with
  | nil => rfl
  | cons p rest ih =>
    rw [dictKeys, List.map_cons, List.find?_cons] at h
    by_cases hp : lowerStr p.1 == lowerStr w
    · simp [hp] at h
    · simp only [hp] at h
      simp [V3.removeScan, hp, ih h]

theorem removeScan_of_find_some (d : PyDict) (w k₀ : String)
    (h : (dictKeys d).find? (fun k => lowerStr k == lowerStr w) = some k₀) :
    V3.removeScan d w = (eraseKey d k₀, true) := by
  induction d with
  | nil => simp [dictKeys] at h
  | cons p rest ih =>
    rw [dictKeys, List.map_cons, List.find?_cons] at h
    by_cases hp : lowerStr p.1 == lowerStr w
    · simp only [hp] at h
      injection h with h
      subst h
      simp [V3.removeScan, hp, eraseKey]
    · simp only [hp] at h
      have hk₀ := List.find?_some h
      have hne : (p.1 == k₀) = false := by
        refine beq_eq_false_iff_ne.mpr fun he => ?_
        rw [he] at hp
        exact hp hk₀
      simp [V3.removeScan, hp, ih h, eraseKey, hne]

/-- C5: `remove(w)` removes the entry of the exact key `w` when present;
otherwise it removes the entry of the first key matching `w`
case-insensitively (both sides lowercased), if any; and it returns `true`
exactly when some removal occurred. -/
theorem claim_C5 (d : PyDict) (w : String) :
    (dictContains d w = true → V3.remove d w = (eraseKey d w, true)) ∧
    (dictContains d w = false →
      (∀ k₀, (dictKeys d).find? (fun k => lowerStr k == lowerStr w) = some k₀ →
        V3.remove d w = (eraseKey d k₀, true)) ∧
      ((dictKeys d).find? (fun k => lowerStr k == lowerStr w) = none →
        V3.remove d w = (d, false))) ∧
    ((V3.remove d w).2 = true ↔ ∃ k ∈ dictKeys d, lowerStr k = lowerStr w) := by
  refine ⟨fun h => by simp [V3.remove, h], fun h => ⟨?_, ?_⟩, ?_⟩
  · intro k₀ hf
    simp only [V3.remove, h, Bool.false_eq_true, if_false]
    exact removeScan_of_find_some d w k₀ hf
  · intro hf
    simp only [V3.remove, h, Bool.false_eq_true, if_false]
    exact removeScan_of_find_none d w hf
  · by_cases h : dictContains d w = true
    · simp only [V3.remove, h, if_true]
      exact ⟨fun _ => ⟨w, (dictContains_iff d w).mp h, rfl⟩, fun _ => trivial⟩
    · simp only [Bool.not_eq_true] at h
      simp only [V3.remove, h, Bool.false_eq_true, if_false]
      cases hf : (dictKeys d).find? (fun k => lowerStr k == lowerStr w) with
      | none =>
        rw [removeScan_of_find_none d w hf]
        simp only [List.find?_eq_none] at hf
        constructor
        · intro hc
          exact absurd hc (by simp)
        · rintro ⟨k, hk, he⟩
          exact absurd (by simpa using he) (hf k hk)
      | some k₀ =>
        rw [removeScan_of_find_some d w k₀ hf]
        exact ⟨fun _ => ⟨k₀, List.mem_of_find?_eq_some hf,
          by simpa using List.find?_some hf⟩, fun _ => rfl⟩

/-- C5 witness: exact removal, case-insensitive fallback removal, and the
returned booleans, on concrete mappings. -/
theorem claim_C5_witness :
    V3.remove [("cache", "x"), ("Cache", "y")] "Cache" = ([("cache", "x")], true) ∧
    V3.remove [("cache", "x")] "CACHE" = ([], true) ∧
    ((V3.remove [("cache", "x")] "dog").2 = true ↔
      ∃ k ∈ dictKeys [("cache", "x")], lowerStr k = lowerStr "dog") :=
  ⟨by
    have h := (claim_C5 [("cache", "x"), ("Cache", "y")] "Cache").1 (by decide)
    simpa using h,
   by
    have h := ((claim_C5 [("cache", "x")] "CACHE").2.1 (by decide)).1 "cache" (by decide)
    simpa using h,
   (claim_C5 [("cache", "x")] "dog").2.2⟩

/-! ### C6: lookup/remove on absent words — REFUTED for `agentv3.py`
In `agentv3.py`, `remove` falls back to case-insensitive matching and the
default `define` lookup is case-insensitive, so a word that is not a key
can still be removed (and found). The claim holds as stated only for the
exact-match variant in `agent_ai_gen.py`. -/

/-- C6 counterexample: with the mapping `{"cache": "x"}`, the word
`"Cache"` is not a key, yet in `agentv3.py` `remove("Cache")` returns `true`
(and removes the `"cache"` entry), and its default `lookup("Cache")`
returns the definition rather than absent — contradicting the claim that
for every non-key `w`, lookup is absent and remove returns `false`. -/
theorem claim_C6_counterexample :
    dictContains [("cache", "x")] "Cache" = false ∧
    V3.remove [("cache", "x")] "Cache" = ([], true) ∧
    V3.define [("cache", "x")] "Cache" false = some "x" := by
  refine ⟨by decide, by decide, by decide⟩

/-- The case-insensitive lookup scan is a `find?` over the entries. -/
theorem defineScan_eq_find (d : PyDict) (key : String) :
    V3.defineScan d key = (d.find? fun p => lowerStr p.1 == key).map Prod.snd := by
  induction d with
  | nil => rfl
  | cons p rest ih =>
    by_cases hp : lowerStr p.1 == key
    · simp [V3.defineScan, List.find?_cons, hp]
    · simp [V3.defineScan, List.find?_cons, hp, ih]

/-- C6 (amended): in `agent_ai_gen.py` (exact-match variant), for every
non-key `w`, `lookup(w)` is absent and `remove(w)` returns `false` leaving
the mapping unchanged; in `agentv3.py` the same holds provided no key
matches `w` even case-insensitively. -/
theorem claim_C6 (d : PyDict) (w : String) :
    (dictContains d w = false →
      Gen.lookup d w = none ∧ Gen.remove d w = (d, false)) ∧
    ((∀ k ∈ dictKeys d, lowerStr k ≠ lowerStr w) →
      V3.define d w false = none ∧ V3.define d w true = none ∧
      V3.remove d w = (d, false)) := by
  constructor
  · intro h
    refine ⟨dictGet_of_not_contains d w h, ?_⟩
    simp [Gen.remove, eraseKey_of_not_contains d w h, h]
  · intro h
    have hc : dictContains d w = false := by
      by_contra hc
      simp only [Bool.not_eq_false] at hc
      exact h w ((dictContains_iff d w).mp hc) rfl
    have hf : (dictKeys d).find? (fun k => lowerStr k == lowerStr w) = none :=
      List.find?_eq_none.mpr fun k hk => by simpa using h k hk
    refine ⟨?_, ?_, ?_⟩
    · have hscan := defineScan_eq_find d (lowerStr w)
      have hnone : (d.find? fun p => lowerStr p.1 == lowerStr w) = none := by
        refine List.find?_eq_none.mpr fun p hp => ?_
        have : p.1 ∈ dictKeys d := by
          simp only [dictKeys, List.mem_map]
          exact ⟨p, hp, rfl⟩
        simpa using h p.1 this
      simp [V3.define, hscan, hnone]
    · simpa [V3.define] using dictGet_of_not_contains d w hc
    · simp only [V3.remove, hc, Bool.false_eq_true, if_false]
      exact removeScan_of_find_none d w hf

/-- C6 witness: a word matching no key even case-insensitively is neither
found nor removed, in both variants. -/
theorem claim_C6_witness :
    (Gen.lookup [("cache", "x")] "dog" = none ∧
      Gen.remove [("cache", "x")] "dog" = ([("cache", "x")], false)) ∧
    (V3.define [("cache", "x")] "dog" false = none ∧
      V3.define [("cache", "x")] "dog" true = none ∧
      V3.remove [("cache", "x")] "dog" = ([("cache", "x")], false)) :=
  ⟨(claim_C6 [("cache", "x")] "dog").1 (by decide),
    (claim_C6 [("cache", "x")] "dog").2 (by decide)⟩

/-! ### C7: default lookup is a case-insensitive scan; case-sensitive is exact -/

/-- C7: the default (case-insensitive) lookup scans the entries in
mapping-iteration order, compares both sides lowercased, and returns the
value of the first matching entry; case-sensitive lookup is an exact
`dict.get`; and on the mapping `{"cache": d}`, `lookup("Cache")` finds `d`
while `lookup("Cache", case_sensitive=True)` is absent. -/
theorem claim_C7 (d : PyDict) (w : String) :
    V3.define d w true = dictGet d w ∧
    V3.define d w false = (d.find? fun p => lowerStr p.1 == lowerStr w).map Prod.snd ∧
    (∀ dd : String, V3.define [("cache", dd)] "Cache" false = some dd ∧
      V3.define [("cache", dd)] "Cache" true = none) := by
  refine ⟨rfl, ?_, ?_⟩
  · simpa [V3.define] using defineScan_eq_find d (lowerStr w)
  · intro dd
    constructor
    · show V3.defineScan [("cache", dd)] (lowerStr "Cache") = some dd
      have hlow : (lowerStr "cache" == lowerStr "Cache") = true := by decide
      simp [V3.defineScan, hlow]
    · show dictGet [("cache", dd)] "Cache" = none
      simp [dictGet, show (("cache" : String) == "Cache") = false by decide]

/-! ### C8: a successful add is observable by case-sensitive lookup -/

/-- C8: whenever `add(w, d)` returns `true`, a case-sensitive lookup of `w`
returns `d` (both variants); in particular `add(w, d1)` followed by
`add(w, d2, overwrite=true)` returns `true` and then lookup returns `d2`. -/
theorem claim_C8 :
    (∀ (d : PyDict) (w dfn : String) (ow : Bool), (V3.add d w dfn ow).2 = true →
      V3.define (V3.add d w dfn ow).1 w true = some dfn) ∧
    (∀ (d : PyDict) (w dfn : String) (ow : Bool), (Gen.add d w dfn ow).2 = true →
      Gen.lookup (Gen.add d w dfn ow).1 w = some dfn) ∧
    (∀ (d : PyDict) (w d1 d2 : String),
      (V3.add (V3.add d w d1 false).1 w d2 true).2 = true ∧
      V3.define (V3.add (V3.add d w d1 false).1 w d2 true).1 w true = some d2) := by
  have key : ∀ (d : PyDict) (w dfn : String) (ow : Bool), (V3.add d w dfn ow).2 = true →
      dictGet (V3.add d w dfn ow).1 w = some dfn := by
    intro d w dfn ow h
    unfold V3.add at h ⊢
    split at h <;> rename_i hc
    · simp at h
    · rw [if_neg hc]
      simpa using dictGet_dictSet_self d w dfn
  refine ⟨fun d w dfn ow h => key d w dfn ow h, ?_, ?_⟩
  · intro d w dfn ow h
    exact key d w dfn ow h
  · intro d w d1 d2
    have h2 : (V3.add (V3.add d w d1 false).1 w d2 true).2 = true := by
      unfold V3.add
      split <;> simp
    exact ⟨h2, key (V3.add d w d1 false).1 w d2 true h2⟩

/-- C8 witness: adding to an empty mapping then overwriting. -/
theorem claim_C8_witness :
    V3.define (V3.add [] "cache" "fast" false).1 "cache" true = some "fast" ∧
    Gen.lookup (Gen.add [("a", "b")] "a" "c" true).1 "a" = some "c" :=
  ⟨claim_C8.1 [] "cache" "fast" false (by decide),
    claim_C8.2.1 [("a", "b")] "a" "c" true (by decide)⟩

/-! ### C9: list is the sorted key set, with case-sensitive prefix filtering -/

/-- C9: `list()` returns exactly the keys (a permutation of the key set),
sorted ascending in the lexicographic string order; and `list(prefix=p)`
returns exactly the subsequence of that sorted list whose elements start
with `p` (case-sensitively). The latter also covers `p = ""`, where the
Python truthiness test makes `list` return all keys — which equals the
filter, since every string starts with `""`. -/
theorem claim_C9 (d : PyDict) (p : String) :
    (V3.list d none).Perm (dictKeys d) ∧
    (V3.list d none).Pairwise (· ≤ ·) ∧
    V3.list d (some p) = (V3.list d none).filter (fun k => strStartsWith k p) := by
  refine ⟨List.perm_insertionSort (· ≤ ·) (dictKeys d),
    List.sorted_insertionSort (· ≤ ·) (dictKeys d), ?_⟩
  by_cases hp : p == ""
  · have hpe : p = "" := by simpa using hp
    have : ∀ k : String, strStartsWith k "" = true := fun k => rfl
    simp [V3.list, hp, hpe, List.filter_eq_self.mpr fun k _ => this k]
  · simp [V3.list, hp]

/-! ### C10: load coerces every key and value to a string -/

theorem mem_dictSet (d : PyDict) (k v : String) (p : String × String)
    (hp : p ∈ dictSet d k v) : p ∈ d ∨ p = (k, v) := by
  unfold dictSet at hp
  split at hp
  · rcases List.mem_map.mp hp with ⟨q, hq, he⟩
    by_cases hk : q.1 == k
    · right
      have : q.1 = k := beq_iff_eq.mp hk
      simp [hk, this] at he
      simp [← he]
    · left
      simp only [hk, Bool.false_eq_true, if_false] at he
      exact he ▸ hq
  · rcases List.mem_append.mp hp with hq | hq
    · exact Or.inl hq
    · exact Or.inr (by simpa using hq)

theorem mem_foldl_dictSet (l : List (String × String)) :
    ∀ (acc : PyDict) (p : String × String),
      p ∈ l.foldl (fun d q => dictSet d q.1 q.2) acc → p ∈ acc ∨ p ∈ l := by
  induction l with
  | nil => exact fun acc p hp => Or.inl hp
  | cons q rest ih =>
    intro acc p hp
    rw [List.foldl_cons] at hp
    rcases ih (dictSet acc q.1 q.2) p hp with h | h
    · rcases mem_dictSet acc q.1 q.2 p h with h | h
      · exact Or.inl h
      · exact Or.inr (by simp [h])
    · exact Or.inr (List.mem_cons_of_mem q h)

/-- C10: loading any document whose top-level value is a key-value object
succeeds (no value is rejected), and every entry of the resulting in-memory
mapping is a string pair whose value is the `str`-coercion of one of the
document values under its key — numbers, booleans, null and nested
structures are silently stringified rather than rejected, so the
string-to-string invariant holds on every load result by construction. -/
theorem claim_C10 (kvs : List (String × Json)) :
    ∃ d : PyDict, Gen.load (FileContent.file (Json.obj kvs)) = Except.ok d ∧
      ∀ p ∈ d, ∃ j : Json, (p.1, j) ∈ kvs ∧ p.2 = pyStr j := by
  refine ⟨fromPairs (kvs.map fun p => (p.1, pyStr p.2)), by simp [Gen.load], ?_⟩
  intro p hp
  rw [fromPairs] at hp
  rcases mem_foldl_dictSet (kvs.map fun p => (p.1, pyStr p.2)) [] p hp with h | h
  · simp at h
  · rcases List.mem_map.mp h with ⟨q, hq, he⟩
    exact ⟨q.2, by simpa [← he] using hq, by simp [← he]⟩

/-! ### C2 groundwork: `ratio ≤ quick_ratio ≤ real_quick_ratio`
These are the invariants the difflib documentation itself states for its
filtering cascade; they show the three-test filter in `get_close_matches`
keeps exactly the candidates whose true ratio reaches the cutoff. -/

namespace Difflib

theorem cpl_le_left : ∀ a b : List Char, cpl a b ≤ a.length
  | [], _ => by simp [cpl]
  | _ :: _, [] => by simp [cpl]
  | a :: as, b :: bs => by
    by_cases h : a = b
    · simpa [cpl, h] using cpl_le_left as bs
    · simp [cpl, h]

theorem cpl_le_right : ∀ a b : List Char, cpl a b ≤ b.length
  | [], _ => by simp [cpl]
  | _ :: _, [] => by simp [cpl]
  | a :: as, b :: bs => by
    by_cases h : a = b
    · simpa [cpl, h] using cpl_le_right as bs
    · simp [cpl, h]

theorem cpl_take_eq : ∀ a b : List Char, a.take (cpl a b) = b.take (cpl a b)
  | [], _ => by simp [cpl]
  | _ :: _, [] => by simp [cpl]
  | a :: as, b :: bs => by
    by_cases h : a = b
    · simp only [cpl, h, if_true, List.take_succ_cons]
      rw [cpl_take_eq as bs]
    · simp [cpl, h]

theorem foldl_lmPick_mem (l : List (Nat × Nat × Nat)) :
    ∀ init : Nat × Nat × Nat, l.foldl lmPick init = init ∨ l.foldl lmPick init ∈ l := by
  induction l with
  | nil => exact fun init => Or.inl rfl
  | cons t ts ih =>
    intro init
    rw [List.foldl_cons]
    rcases ih (lmPick init t) with h | h
    · rw [h]
      unfold lmPick
      split
      · exact Or.inr (List.mem_cons_self _ _)
      · exact Or.inl rfl
    · exact Or.inr (List.mem_cons_of_mem _ h)

theorem mem_lmCands {a b : List Char} {t : Nat × Nat × Nat} (h : t ∈ lmCands a b) :
    t.1 < a.length ∧ t.2.1 < b.length ∧ t.2.2 = cpl (a.drop t.1) (b.drop t.2.1) := by
  simp only [lmCands, List.mem_flatMap, List.mem_map, List.mem_range] at h
  obtain ⟨i, hi, j, hj, he⟩ := h
  subst he
  exact ⟨hi, hj, rfl⟩

theorem longestMatch_spec (a b : List Char) (h : (longestMatch a b).2.2 ≠ 0) :
    (longestMatch a b).1 < a.length ∧ (longestMatch a b).2.1 < b.length ∧
      (longestMatch a b).2.2 =
        cpl (a.drop (longestMatch a b).1) (b.drop (longestMatch a b).2.1) := by
  rcases foldl_lmPick_mem (lmCands a b) (0, 0, 0) with h0 | hm
  · exact absurd (by rw [longestMatch, h0]) h
  · exact mem_lmCands (by rw [longestMatch]; exact hm)

theorem inter_add_le (s₁ s₂ t₁ t₂ : Multiset Char) :
    s₁ ∩ t₁ + s₂ ∩ t₂ ≤ (s₁ + s₂) ∩ (t₁ + t₂) := by
  rw [Multiset.le_iff_count]
  intro c
  simp only [Multiset.count_add, Multiset.count_inter]
  omega

theorem matchingSumF_le_inter :
    ∀ (fuel : Nat) (a b : List Char),
      matchingSumF fuel a b ≤ Multiset.card ((↑a : Multiset Char) ∩ ↑b) := by
  intro fuel
  induction fuel with
  | zero => intro a b; simp [matchingSumF]
  | succ fuel ih =>
    intro a b
    by_cases h0 : (longestMatch a b).2.2 = 0
    · simp [matchingSumF, h0]
    · obtain ⟨hia, hjb, hk⟩ := longestMatch_spec a b h0
      rw [show matchingSumF (fuel + 1) a b =
          matchingSumF fuel (a.take (longestMatch a b).1) (b.take (longestMatch a b).2.1) +
            (longestMatch a b).2.2 +
            matchingSumF fuel
              (a.drop ((longestMatch a b).1 + (longestMatch a b).2.2))
              (b.drop ((longestMatch a b).2.1 + (longestMatch a b).2.2))
          from by rw [matchingSumF, if_neg h0]]
      set i := (longestMatch a b).1 with hi
      set j := (longestMatch a b).2.1 with hj
      set k := (longestMatch a b).2.2 with hkk
      have hcl := cpl_le_left (a.drop i) (b.drop j)
      have hcr := cpl_le_right (a.drop i) (b.drop j)
      rw [List.length_drop] at hcl hcr
      have hik : i + k ≤ a.length := by omega
      have hjk : j + k ≤ b.length := by omega
      have hblock : (a.drop i).take k = (b.drop j).take k := by
        rw [hk]
        exact cpl_take_eq (a.drop i) (b.drop j)
      have hlenB : ((b.drop j).take k).length = k := by
        rw [List.length_take, List.length_drop]
        omega
      have hsplitA : a = a.take i ++ ((a.drop i).take k ++ a.drop (i + k)) := by
        rw [← List.drop_drop, List.take_append_drop, List.take_append_drop]
      have hsplitB : b = b.take j ++ ((b.drop j).take k ++ b.drop (j + k)) := by
        rw [← List.drop_drop, List.take_append_drop, List.take_append_drop]
      have ihl := ih (a.take i) (b.take j)
      have ihr := ih (a.drop (i + k)) (b.drop (j + k))
      have hinter_self : ∀ s : Multiset Char, s ∩ s = s := fun s =>
        le_antisymm (Multiset.inter_le_left s s)
          (Multiset.le_inter (le_refl s) (le_refl s))
      have hmid : Multiset.card ((↑((a.drop i).take k) : Multiset Char) ∩
          ↑((b.drop j).take k)) = k := by
        rw [hblock, hinter_self, Multiset.coe_card, hlenB]
      have h1 := Multiset.card_le_card (inter_add_le (↑(a.take i)) (↑((a.drop i).take k))
        (↑(b.take j)) (↑((b.drop j).take k)))
      have h2 := Multiset.card_le_card (inter_add_le
        ((↑(a.take i) : Multiset Char) + ↑((a.drop i).take k)) (↑(a.drop (i + k)))
        ((↑(b.take j) : Multiset Char) + ↑((b.drop j).take k)) (↑(b.drop (j + k))))
      rw [Multiset.card_add] at h1 h2
      have hcoeA : ((↑(a.take i) : Multiset Char) + ↑((a.drop i).take k)) +
          ↑(a.drop (i + k)) = (↑a : Multiset Char) := by
        rw [Multiset.coe_add, Multiset.coe_add]
        conv_rhs => rw [hsplitA]
        rw [List.append_assoc]
      have hcoeB : ((↑(b.take j) : Multiset Char) + ↑((b.drop j).take k)) +
          ↑(b.drop (j + k)) = (↑b : Multiset Char) := by
        rw [Multiset.coe_add, Multiset.coe_add]
        conv_rhs => rw [hsplitB]
        rw [List.append_assoc]
      rw [hcoeA, hcoeB] at h2
      omega

/-- The match count of `quick_ratio` is the cardinality of the character
multiset intersection. -/
theorem quickMatchCount_eq (a b : List Char) :
    quickMatchCount a b = Multiset.card ((↑a : Multiset Char) ∩ ↑b) := by
  rw [show ((↑a : Multiset Char) ∩ ↑b) = ↑(a.bagInter b) from rfl,
    Multiset.coe_card]
  rfl

theorem matchingSum_le_quickMatchCount (a b : List Char) :
    matchingSum a b ≤ quickMatchCount a b := by
  rw [quickMatchCount_eq]
  exact matchingSumF_le_inter a.length a b

theorem quickMatchCount_le_min (a b : List Char) :
    quickMatchCount a b ≤ min a.length b.length := by
  rw [quickMatchCount_eq]
  have h1 := Multiset.card_le_card (Multiset.inter_le_left (↑a : Multiset Char) ↑b)
  have h2 := Multiset.card_le_card (Multiset.inter_le_right (↑a : Multiset Char) ↑b)
  rw [Multiset.coe_card] at h1 h2
  omega

theorem calcRatioQ_mono {m m' : Nat} (len : Nat) (h : m ≤ m') :
    calcRatioQ m len ≤ calcRatioQ m' len := by
  unfold calcRatioQ
  split
  · rw [Rat.mkRat_eq_div, Rat.mkRat_eq_div]
    gcongr
  · exact le_refl 1

theorem ratioQ_le_quickRatioQ (a b : String) : ratioQ a b ≤ quickRatioQ a b :=
  calcRatioQ_mono _ (matchingSum_le_quickMatchCount a.data b.data)

theorem quickRatioQ_le_realQuickRatioQ (a b : String) :
    quickRatioQ a b ≤ realQuickRatioQ a b :=
  calcRatioQ_mono _ (quickMatchCount_le_min a.data b.data)

theorem filterMap_ite_eq_map_filter {α β : Type} (p : α → Prop) [DecidablePred p]
    (f : α → β) (l : List α) :
    (l.filterMap fun x => if p x then some (f x) else none) =
      (l.filter fun x => decide (p x)).map f := by
  induction l with
  | nil => rfl
  | cons x xs ih =>
    by_cases hx : p x
    · simp [List.filterMap_cons, List.filter_cons, hx, ih]
    · simp [List.filterMap_cons, List.filter_cons, hx, ih]

end Difflib

/-! ### C2: the suggestion contract — REFUTED as stated, holds amended
Two deviations from the claim: `difflib.get_close_matches` raises
`ValueError` when `n <= 0` (it does not return an empty result), and ties
are broken by the tuple comparison of the heap `(score, candidate)`, i.e. equal
ratios are ordered by descending candidate string, not by input order. -/

set_option maxRecDepth 20000 in
/-- C2 counterexample: at `max_results = 0` the code raises `ValueError`
instead of yielding an empty result; and the equal-ratio candidates
`["ax", "xb"]` for query `"ab"` (both ratio 1/2 ≥ 0.4) come back as
`["xb", "ax"]` — descending string order, not input order. -/
theorem claim_C2_counterexample :
    Difflib.getCloseMatches "exampl" ["example", "function", "cache"] 0 (mkRat 2 5) =
      Except.error "n must be > 0" ∧
    Difflib.getCloseMatches "ab" ["ax", "xb"] 5 (mkRat 2 5) =
      Except.ok ["xb", "ax"] :=
  ⟨rfl, rfl⟩

set_option maxRecDepth 40000 in
/-- C2 (amended): with a positive `max_results` and a cutoff in `[0, 1]`,
`suggest`/`get_close_matches` returns exactly the candidates whose
Ratcliff/Obershelp ratio reaches the cutoff (0.4 for `suggest`), sorted
descending by ratio with equal ratios ordered by descending candidate
string (heap tuple order), truncated to `max_results`; an empty candidate
set yields an empty result, but `max_results <= 0` raises `ValueError`
rather than returning empty; `suggest("exampl", …)` ranks `"example"`
first (and alone), and `"zzzzz"` against the built-in keys yields nothing
at cutoff 0.4. -/
theorem claim_C2 :
    (∀ (word : String) (ps : List String) (n : Int) (cutoff : ℚ),
      0 < n → 0 ≤ cutoff → cutoff ≤ 1 →
      Difflib.getCloseMatches word ps n cutoff =
        Except.ok (Difflib.suggestSpec word ps n cutoff)) ∧
    (∀ (d : PyDict) (q : String) (m : Int), 0 < m →
      V3.suggest d q m = Except.ok (Difflib.suggestSpec q (dictKeys d) m (mkRat 2 5))) ∧
    (∀ (word : String) (n : Int) (cutoff : ℚ), 0 < n → 0 ≤ cutoff → cutoff ≤ 1 →
      Difflib.getCloseMatches word [] n cutoff = Except.ok []) ∧
    (∀ (word : String) (ps : List String) (cutoff : ℚ) (n : Int), n ≤ 0 →
      Difflib.getCloseMatches word ps n cutoff = Except.error "n must be > 0") ∧
    Difflib.getCloseMatches "exampl" ["example", "function", "cache"] 5 (mkRat 2 5) =
      Except.ok ["example"] ∧
    Difflib.getCloseMatches "zzzzz"
      ["algorithm", "binary", "cache", "dictionary", "example", "function"] 5 (mkRat 2 5) =
      Except.ok [] := by
  have main : ∀ (word : String) (ps : List String) (n : Int) (cutoff : ℚ),
      0 < n → 0 ≤ cutoff → cutoff ≤ 1 →
      Difflib.getCloseMatches word ps n cutoff =
        Except.ok (Difflib.suggestSpec word ps n cutoff) := by
    intro word ps n cutoff hn h0 h1
    have hfun : (fun x => if cutoff ≤ Difflib.realQuickRatioQ x word ∧
          cutoff ≤ Difflib.quickRatioQ x word ∧ cutoff ≤ Difflib.ratioQ x word
        then some (Difflib.ratioQ x word, x) else none)
        = fun x : String => if cutoff ≤ Difflib.ratioQ x word
            then some (Difflib.ratioQ x word, x) else none := by
      funext x
      by_cases hx : cutoff ≤ Difflib.ratioQ x word
      · rw [if_pos ⟨hx.trans ((Difflib.ratioQ_le_quickRatioQ x word).trans
          (Difflib.quickRatioQ_le_realQuickRatioQ x word)),
          hx.trans (Difflib.ratioQ_le_quickRatioQ x word), hx⟩, if_pos hx]
      · rw [if_neg (fun hc => hx hc.2.2), if_neg hx]
    unfold Difflib.getCloseMatches Difflib.suggestSpec Difflib.nlargest
    rw [if_neg (not_not_intro hn), if_neg (not_not_intro ⟨h0, h1⟩)]
    simp only [hfun, Difflib.filterMap_ite_eq_map_filter
      (fun x : String => cutoff ≤ Difflib.ratioQ x word)
      (fun x : String => (Difflib.ratioQ x word, x)) ps]
  refine ⟨main, ?_, ?_, ?_, rfl, rfl⟩
  · intro d q m hm
    exact main q (dictKeys d) m (mkRat 2 5) hm (by decide) (by decide)
  · intro word n cutoff hn h0 h1
    rw [main word [] n cutoff hn h0 h1]
    simp [Difflib.suggestSpec]
  · intro word ps cutoff n hn
    rw [Difflib.getCloseMatches, if_pos (by omega)]

set_option maxRecDepth 20000 in
/-- C2 witness: the amended general statement applied at the example query of the spec itself
 and candidate set. -/
theorem claim_C2_witness :
    Difflib.getCloseMatches "exampl" ["example", "function", "cache"] 5 (mkRat 2 5) =
      Except.ok (Difflib.suggestSpec "exampl" ["example", "function", "cache"] 5 (mkRat 2 5)) :=
  claim_C2.1 "exampl" ["example", "function", "cache"] 5 (mkRat 2 5)
    (by decide) (by decide) (by decide)

/-- C10 witness: a document with a number, a boolean and a nested list as
values loads successfully with all values stringified. -/
theorem claim_C10_witness :
    ∃ d : PyDict,
      Gen.load (FileContent.file (Json.obj
        [("a", Json.num 5), ("b", Json.bool true), ("c", Json.arr [Json.num 1])])) =
        Except.ok d ∧
      ∀ p ∈ d, ∃ j : Json,
        (p.1, j) ∈ [("a", Json.num 5), ("b", Json.bool true),
          ("c", Json.arr [Json.num 1])] ∧ p.2 = pyStr j :=
  claim_C10 [("a", Json.num 5), ("b", Json.bool true), ("c", Json.arr [Json.num 1])]

end DictAgent
